import Mathlib

/-
Verification of the dump orchestration and resume engine of
extract-partitions.py (function dump_partitions and the max-size
handling in main), under a shallow embedding.

Modelling notes.
Python integers are arbitrary-precision and signed, so all byte
quantities are Int.  The filesystem is a map from paths to a
FileState: a present file with a size, an absent file (os.path.getsize
raises FileNotFoundError, a subclass of OSError), or a file whose size
probe fails with some other OSError (e.g. permission denied).  The
source's try/except handles the probe; both error cases are caught by
the single `except OSError: pass`.
The collaborator partitions.dump_partition is not under src/;
its effect is modelled from the spec (see dump step below).  Reporting
strings carry raw byte counts; the Python code formats sizes divided
by 1024 for display, which no property here depends on.
-/

namespace ExtractPartitions

/-- Modelled from the spec: partitions.BLOCK_SIZE (file partitions.py is
not part of this repository snapshot); the spec fixes it at 512 bytes
for the observed device family. -/
def BLOCK_SIZE : Int := 512

/-- A partition descriptor as produced by the Partition Table Model:
1-based index, name, and inclusive LBA bounds. -/
structure PartDesc where
  index : Nat
  name : String
  first_lba : Nat
  last_lba : Nat
deriving DecidableEq

/-- State of one path on the filesystem, as seen by the size probe
os.path.getsize: a file of a given size, a missing file, or a probe
failing with an OSError other than file-not-found. -/
inductive FileState where
  | present (size : Int)
  | absent
  | accessError
deriving DecidableEq

/-- The filesystem: a map from paths to file states. -/
abbrev Fs := String → FileState

/-- Functional update of the filesystem at one path. -/
def Fs.update (fs : Fs) (path : String) (st : FileState) : Fs :=
  fun q => if q = path then st else fs q

/-- The per-partition decision events of dump_partitions, one per
branch of the source: skip for size (line 43), oversized-warning
(line 53), skip-already-complete (line 60), dump (line 75). -/
inductive Decision where
  | skippedLarge (label name : String) (size : Int)
  | abortOversized (path : String) (currentSize targetSize : Int)
  | skipComplete (label name path : String)
  | dumped (label name path : String) (offset length : Int)
deriving DecidableEq

/-- Boolean recogniser for the skipped-for-size decision. -/
def Decision.isSkippedLarge : Decision → Bool
  | .skippedLarge _ _ _ => true
  | _ => false

/-- One read issued through the Device Channel by the executor:
partitions.dump_partition(comm, disk_fd, out_path, part_offset,
part_size, batch) — the destination path and the absolute byte
offset and length. -/
structure ReadOp where
  path : String
  offset : Int
  length : Int
deriving DecidableEq

/-- part_offset = part.first_lba * partitions.BLOCK_SIZE (line 39). -/
def part_offset (p : PartDesc) : Int := (p.first_lba : Int) * BLOCK_SIZE

/-- part_size = ((part.last_lba + 1) - part.first_lba) * BLOCK_SIZE
(line 40); arbitrary-precision signed arithmetic, so the result is
negative when last_lba + 1 < first_lba. -/
def part_size (p : PartDesc) : Int :=
  ((p.last_lba : Int) + 1 - (p.first_lba : Int)) * BLOCK_SIZE

/-- part_label = "/dev/mmcblk0p%i" % part.index (line 42). -/
def part_label (p : PartDesc) : String := "/dev/mmcblk0p" ++ toString p.index

/-- out_path = os.path.join(outdir, "%s.bin" % part_name) (line 50). -/
def out_path (outdir : String) (p : PartDesc) : String :=
  outdir ++ "/" ++ p.name ++ ".bin"

/-- The size-skip condition of line 43: `if max_size and part_size >
max_size` — Python truthiness of max_size is max_size ≠ 0. -/
abbrev plannerSkips (max_size : Int) (p : PartDesc) : Prop :=
  max_size ≠ 0 ∧ part_size p > max_size

/-- The body of dump_partitions for one partition, without reporting:
the decision taken, the Device Channel reads issued, and the new
filesystem.  The dump branch is the call to partitions.dump_partition;
that function is not under src/, so its effect is modelled from the
spec: on success the transfer leaves exactly one file of exactly
byte_length bytes at the destination path. -/
def stepCore (max_size : Int) (outdir : String) (fs : Fs) (p : PartDesc) :
    Decision × List ReadOp × Fs :=
  if max_size ≠ 0 ∧ part_size p > max_size then
    (.skippedLarge (part_label p) p.name (part_size p), [], fs)
  else
    let path := out_path outdir p
    let dump : Decision × List ReadOp × Fs :=
      (.dumped (part_label p) p.name path (part_offset p) (part_size p),
       [⟨path, part_offset p, part_size p⟩],
       Fs.update fs path (.present (part_size p)))
    match fs path with
    | .present s =>
      if s > part_size p then (.abortOversized path s (part_size p), [], fs)
      else if s = part_size p then
        (.skipComplete (part_label p) p.name path, [], fs)
      else dump
    | .absent => dump
    | .accessError => dump

/-- The report line emitted for a decision: batch mode prints
machine-parsable lines starting with a hash mark, interactive mode
logs human-readable messages (lines 44-48, 54-58, 61-65, 69-73). -/
def reportOf (batch : Bool) : Decision → String
  | .skippedLarge label n s =>
    if batch then
      "#Ignoring large partition " ++ label ++ " (" ++ n ++ ") of size " ++ toString s
    else
      "Ignoring large partition " ++ label ++ " (" ++ n ++ ") of size " ++ toString s
  | .abortOversized path cur tgt =>
    if batch then
      "#" ++ path ++ ": unexpected size " ++ toString cur ++ ", larger than " ++ toString tgt
    else
      path ++ ": unexpected size " ++ toString cur ++ ", larger than " ++ toString tgt
  | .skipComplete label n path =>
    if batch then
      "#Skipping already existing partition " ++ label ++ " (" ++ n ++ ")"
    else
      "Skipping partition " ++ label ++ " (" ++ n ++ "), already found at " ++ path
  | .dumped label n path _ len =>
    if batch then
      "#" ++ label ++ " (" ++ n ++ ")"
    else
      "Dumping partition " ++ label ++ " (" ++ n ++ ") to " ++ path ++ " (" ++ toString len ++ " bytes)"

/-- Outcome of one loop iteration of dump_partitions. -/
structure StepOut where
  decision : Decision
  reads : List ReadOp
  fs : Fs
  report : String

/-- One iteration of the loop of dump_partitions (lines 38-75),
including the report emitted on the channel selected by batch. -/
def step (batch : Bool) (max_size : Int) (outdir : String) (fs : Fs)
    (p : PartDesc) : StepOut :=
  let c := stepCore max_size outdir fs p
  ⟨c.1, c.2.1, c.2.2, reportOf batch c.1⟩

/-- Accumulated outcome of a run of dump_partitions. -/
structure RunOut where
  decisions : List Decision
  reads : List ReadOp
  reports : List String
  fs : Fs

/-- dump_partitions (lines 36-75): iterate the partition table in
order, one decision per partition, threading the filesystem. -/
def dump_partitions (batch : Bool) (max_size : Int) (outdir : String) :
    List PartDesc → Fs → RunOut
  | [], fs => ⟨[], [], [], fs⟩
  | p :: ps, fs =>
    let o := step batch max_size outdir fs p
    let r := dump_partitions batch max_size outdir ps o.fs
    ⟨o.decision :: r.decisions, o.reads ++ r.reads, o.report :: r.reports, r.fs⟩

/-- The KiB-to-bytes conversion applied to the command-line ceiling at
the call site: args.max_size * 1024 (line 95). -/
def max_size_bytes (kib : Int) : Int := kib * 1024

/-- The default of the --max-size argument, in KiB (line 22). -/
def default_max_size : Int := 65535

/-- Branch characterisation: a partition caught by the size ceiling is
skipped with no read and no filesystem change. -/
theorem stepCore_of_skip (m : Int) (o : String) (fs : Fs) (p : PartDesc)
    (h : plannerSkips m p) :
    stepCore m o fs p
      = (.skippedLarge (part_label p) p.name (part_size p), [], fs) := by
  unfold stepCore
  rw [if_pos h]

/-- Branch characterisation: an existing file strictly larger than the
target size aborts the partition, leaving the filesystem untouched. -/
theorem stepCore_of_oversized (m : Int) (o : String) (fs : Fs) (p : PartDesc)
    (s : Int) (hplan : ¬ plannerSkips m p)
    (hfs : fs (out_path o p) = .present s) (hs : part_size p < s) :
    stepCore m o fs p = (.abortOversized (out_path o p) s (part_size p), [], fs) := by
  unfold stepCore
  rw [if_neg hplan]
  simp only [hfs]
  rw [if_pos hs]

/-- Branch characterisation: an existing file of exactly the target
size is skipped with no read and no filesystem change. -/
theorem stepCore_of_complete (m : Int) (o : String) (fs : Fs) (p : PartDesc)
    (s : Int) (hplan : ¬ plannerSkips m p)
    (hfs : fs (out_path o p) = .present s) (hs : s = part_size p) :
    stepCore m o fs p = (.skipComplete (part_label p) p.name (out_path o p), [], fs) := by
  unfold stepCore
  rw [if_neg hplan]
  simp only [hfs]
  rw [if_neg (by rw [hs]; exact lt_irrefl _), if_pos hs]

/-- Branch characterisation: an existing file strictly smaller than
the target size is re-dumped over its whole range. -/
theorem stepCore_of_incomplete (m : Int) (o : String) (fs : Fs) (p : PartDesc)
    (s : Int) (hplan : ¬ plannerSkips m p)
    (hfs : fs (out_path o p) = .present s) (hs : s < part_size p) :
    stepCore m o fs p
      = (.dumped (part_label p) p.name (out_path o p) (part_offset p) (part_size p),
         [⟨out_path o p, part_offset p, part_size p⟩],
         Fs.update fs (out_path o p) (.present (part_size p))) := by
  unfold stepCore
  rw [if_neg hplan]
  simp only [hfs]
  rw [if_neg (not_lt.mpr (le_of_lt hs)), if_neg (ne_of_lt hs)]

/-- Branch characterisation: a missing file (size probe raises
FileNotFoundError) is dumped over its whole range. -/
theorem stepCore_of_absent (m : Int) (o : String) (fs : Fs) (p : PartDesc)
    (hplan : ¬ plannerSkips m p) (hfs : fs (out_path o p) = .absent) :
    stepCore m o fs p
      = (.dumped (part_label p) p.name (out_path o p) (part_offset p) (part_size p),
         [⟨out_path o p, part_offset p, part_size p⟩],
         Fs.update fs (out_path o p) (.present (part_size p))) := by
  unfold stepCore
  rw [if_neg hplan]
  simp only [hfs]

/-- Branch characterisation: the `except OSError: pass` of line 67
catches every probe error, so a probe failing with an error other than
file-not-found also falls through to the dump. -/
theorem stepCore_of_accessError (m : Int) (o : String) (fs : Fs) (p : PartDesc)
    (hplan : ¬ plannerSkips m p) (hfs : fs (out_path o p) = .accessError) :
    stepCore m o fs p
      = (.dumped (part_label p) p.name (out_path o p) (part_offset p) (part_size p),
         [⟨out_path o p, part_offset p, part_size p⟩],
         Fs.update fs (out_path o p) (.present (part_size p))) := by
  unfold stepCore
  rw [if_neg hplan]
  simp only [hfs]

/-- Updating a path changes the filesystem exactly there. -/
theorem Fs.update_same (fs : Fs) (path : String) (st : FileState) :
    Fs.update fs path st path = st := by
  unfold Fs.update
  rw [if_pos rfl]

/-- Updating a path leaves every other path unchanged. -/
theorem Fs.update_of_ne (fs : Fs) (path q : String) (st : FileState)
    (h : q ≠ path) : Fs.update fs path st q = fs q := by
  unfold Fs.update
  rw [if_neg h]

/-- The step's decision ignores the batch flag. -/
theorem step_decision (b : Bool) (m : Int) (o : String) (fs : Fs) (p : PartDesc) :
    (step b m o fs p).decision = (stepCore m o fs p).1 := rfl

/-- The step's reads ignore the batch flag. -/
theorem step_reads (b : Bool) (m : Int) (o : String) (fs : Fs) (p : PartDesc) :
    (step b m o fs p).reads = (stepCore m o fs p).2.1 := rfl

/-- The step's filesystem effect ignores the batch flag. -/
theorem step_fs (b : Bool) (m : Int) (o : String) (fs : Fs) (p : PartDesc) :
    (step b m o fs p).fs = (stepCore m o fs p).2.2 := rfl

/-- Unfolding of the run on the empty table. -/
theorem dump_partitions_nil (b : Bool) (m : Int) (o : String) (fs : Fs) :
    dump_partitions b m o [] fs = ⟨[], [], [], fs⟩ := rfl

/-- Unfolding of the run on a non-empty table. -/
theorem dump_partitions_cons (b : Bool) (m : Int) (o : String) (p : PartDesc)
    (ps : List PartDesc) (fs : Fs) :
    dump_partitions b m o (p :: ps) fs
      = ⟨(step b m o fs p).decision
            :: (dump_partitions b m o ps (step b m o fs p).fs).decisions,
         (step b m o fs p).reads
            ++ (dump_partitions b m o ps (step b m o fs p).fs).reads,
         (step b m o fs p).report
            :: (dump_partitions b m o ps (step b m o fs p).fs).reports,
         (dump_partitions b m o ps (step b m o fs p).fs).fs⟩ := rfl

/-- One step never shrinks or removes an existing file: a present file
either keeps its size or is overwritten with the larger target size. -/
theorem stepCore_fs_mono (m : Int) (o : String) (fs : Fs) (p : PartDesc)
    (q : String) (s : Int) (hq : fs q = .present s) :
    ∃ t, (stepCore m o fs p).2.2 q = .present t ∧ s ≤ t := by
  by_cases hplan : plannerSkips m p
  · rw [stepCore_of_skip m o fs p hplan]
    exact ⟨s, hq, le_refl s⟩
  · cases hfs : fs (out_path o p) with
    | present u =>
      rcases lt_trichotomy u (part_size p) with hu | hu | hu
      · rw [stepCore_of_incomplete m o fs p u hplan hfs hu]
        by_cases hqp : q = out_path o p
        · subst hqp
          rw [hq] at hfs
          cases hfs
          exact ⟨part_size p, Fs.update_same fs _ _, le_of_lt hu⟩
        · exact ⟨s, (Fs.update_of_ne fs (out_path o p) q _ hqp).trans hq, le_refl s⟩
      · rw [stepCore_of_complete m o fs p u hplan hfs hu]
        exact ⟨s, hq, le_refl s⟩
      · rw [stepCore_of_oversized m o fs p u hplan hfs hu]
        exact ⟨s, hq, le_refl s⟩
    | absent =>
      rw [stepCore_of_absent m o fs p hplan hfs]
      by_cases hqp : q = out_path o p
      · subst hqp
        rw [hq] at hfs
        cases hfs
      · exact ⟨s, (Fs.update_of_ne fs (out_path o p) q _ hqp).trans hq, le_refl s⟩
    | accessError =>
      rw [stepCore_of_accessError m o fs p hplan hfs]
      by_cases hqp : q = out_path o p
      · subst hqp
        rw [hq] at hfs
        cases hfs
      · exact ⟨s, (Fs.update_of_ne fs (out_path o p) q _ hqp).trans hq, le_refl s⟩

/-- A whole run never shrinks or removes an existing file. -/
theorem dump_partitions_fs_mono (b : Bool) (m : Int) (o : String) :
    ∀ (l : List PartDesc) (fs : Fs) (q : String) (s : Int),
      fs q = .present s →
      ∃ t, (dump_partitions b m o l fs).fs q = .present t ∧ s ≤ t := by
  intro l
  induction l with
  | nil => intro fs q s hq; exact ⟨s, hq, le_refl s⟩
  | cons p ps ih =>
    intro fs q s hq
    rw [dump_partitions_cons]
    obtain ⟨t, ht, hst⟩ := stepCore_fs_mono m o fs p q s hq
    obtain ⟨u, hu, htu⟩ := ih (step b m o fs p).fs q t (by rw [step_fs]; exact ht)
    exact ⟨u, hu, le_trans hst htu⟩

/-- A partition is stable at a filesystem when its step there does no
work: either the size ceiling skips it, or its output file is present
with at least the target size. -/
def stable (m : Int) (o : String) (fs : Fs) (p : PartDesc) : Prop :=
  plannerSkips m p ∨ ∃ s, fs (out_path o p) = .present s ∧ part_size p ≤ s

/-- A stable partition's step issues no read and leaves the
filesystem untouched. -/
theorem stepCore_of_stable (m : Int) (o : String) (fs : Fs) (p : PartDesc)
    (h : stable m o fs p) :
    (stepCore m o fs p).2.1 = [] ∧ (stepCore m o fs p).2.2 = fs := by
  rcases h with hplan | ⟨s, hfs, hle⟩
  · rw [stepCore_of_skip m o fs p hplan]
    exact ⟨rfl, rfl⟩
  · by_cases hplan : plannerSkips m p
    · rw [stepCore_of_skip m o fs p hplan]
      exact ⟨rfl, rfl⟩
    · rcases lt_or_eq_of_le hle with hlt | heq
      · rw [stepCore_of_oversized m o fs p s hplan hfs hlt]
        exact ⟨rfl, rfl⟩
      · rw [stepCore_of_complete m o fs p s hplan hfs heq.symm]
        exact ⟨rfl, rfl⟩

/-- After its own step, a partition is stable. -/
theorem stepCore_establishes_stable (m : Int) (o : String) (fs : Fs)
    (p : PartDesc) : stable m o (stepCore m o fs p).2.2 p := by
  by_cases hplan : plannerSkips m p
  · exact Or.inl hplan
  · cases hfs : fs (out_path o p) with
    | present u =>
      rcases lt_trichotomy u (part_size p) with hu | hu | hu
      · rw [stepCore_of_incomplete m o fs p u hplan hfs hu]
        exact Or.inr ⟨part_size p, Fs.update_same fs _ _, le_refl _⟩
      · rw [stepCore_of_complete m o fs p u hplan hfs hu]
        exact Or.inr ⟨u, hfs, le_of_eq hu.symm⟩
      · rw [stepCore_of_oversized m o fs p u hplan hfs hu]
        exact Or.inr ⟨u, hfs, le_of_lt hu⟩
    | absent =>
      rw [stepCore_of_absent m o fs p hplan hfs]
      exact Or.inr ⟨part_size p, Fs.update_same fs _ _, le_refl _⟩
    | accessError =>
      rw [stepCore_of_accessError m o fs p hplan hfs]
      exact Or.inr ⟨part_size p, Fs.update_same fs _ _, le_refl _⟩

/-- Any step preserves the stability of any partition. -/
theorem stepCore_preserves_stable (m : Int) (o : String) (fs : Fs)
    (p q : PartDesc) (h : stable m o fs q) :
    stable m o (stepCore m o fs p).2.2 q := by
  rcases h with hplan | ⟨s, hfs, hle⟩
  · exact Or.inl hplan
  · obtain ⟨t, ht, hst⟩ := stepCore_fs_mono m o fs p (out_path o q) s hfs
    exact Or.inr ⟨t, ht, le_trans hle hst⟩

/-- A run preserves the stability of any partition. -/
theorem dump_partitions_preserves_stable (b : Bool) (m : Int) (o : String) :
    ∀ (l : List PartDesc) (fs : Fs) (q : PartDesc),
      stable m o fs q → stable m o (dump_partitions b m o l fs).fs q := by
  intro l
  induction l with
  | nil => intro fs q h; exact h
  | cons p ps ih =>
    intro fs q h
    rw [dump_partitions_cons]
    exact ih (step b m o fs p).fs q
      (by rw [step_fs]; exact stepCore_preserves_stable m o fs p q h)

/-- After a run, every partition of the table is stable. -/
theorem dump_partitions_establishes_stable (b : Bool) (m : Int) (o : String) :
    ∀ (l : List PartDesc) (fs : Fs) (p : PartDesc),
      p ∈ l → stable m o (dump_partitions b m o l fs).fs p := by
  intro l
  induction l with
  | nil => intro fs p hp; cases hp
  | cons q qs ih =>
    intro fs p hp
    rw [dump_partitions_cons]
    rcases List.mem_cons.mp hp with heq | hmem
    · subst heq
      exact dump_partitions_preserves_stable b m o qs (step b m o fs p).fs p
        (by rw [step_fs]; exact stepCore_establishes_stable m o fs p)
    · exact ih (step b m o fs q).fs p hmem

/-- A run over a table all of whose partitions are stable issues no
read and changes nothing. -/
theorem dump_partitions_of_stable (b : Bool) (m : Int) (o : String) :
    ∀ (l : List PartDesc) (fs : Fs),
      (∀ p ∈ l, stable m o fs p) →
      (dump_partitions b m o l fs).reads = []
        ∧ (dump_partitions b m o l fs).fs = fs := by
  intro l
  induction l with
  | nil => intro fs _; exact ⟨rfl, rfl⟩
  | cons p ps ih =>
    intro fs h
    obtain ⟨hr, hf⟩ := stepCore_of_stable m o fs p (h p (List.mem_cons_self p ps))
    rw [dump_partitions_cons]
    have hstep : (step b m o fs p).fs = fs := by rw [step_fs]; exact hf
    obtain ⟨ihr, ihf⟩ := ih fs (fun q hq => h q (List.mem_cons_of_mem p hq))
    constructor
    · show (step b m o fs p).reads
        ++ (dump_partitions b m o ps (step b m o fs p).fs).reads = []
      rw [step_reads, hr, hstep, ihr]
      rfl
    · show (dump_partitions b m o ps (step b m o fs p).fs).fs = fs
      rw [hstep, ihf]

/-- Output paths built in the same directory from distinct names are
distinct. -/
theorem out_path_name_ne (o : String) (q p : PartDesc)
    (h : q.name ≠ p.name) : out_path o q ≠ out_path o p := by
  intro heq
  apply h
  unfold out_path at heq
  have hd : ((o ++ "/").data ++ q.name.data) ++ ".bin".data
      = ((o ++ "/").data ++ p.name.data) ++ ".bin".data := by
    have h2 := congrArg String.data heq
    simpa [String.data_append, List.append_assoc] using h2
  have h3 := List.append_cancel_left (List.append_cancel_right hd)
  cases hq : q.name
  cases hp : p.name
  rw [hq, hp] at h3
  exact congrArg String.mk h3

/-- A step of one partition never touches the output path of a
partition with a different name. -/
theorem stepCore_fs_other (m : Int) (o : String) (fs : Fs) (q p : PartDesc)
    (h : q.name ≠ p.name) :
    (stepCore m o fs q).2.2 (out_path o p) = fs (out_path o p) := by
  have hne : out_path o p ≠ out_path o q :=
    fun heq => out_path_name_ne o q p h heq.symm
  by_cases hplan : plannerSkips m q
  · rw [stepCore_of_skip m o fs q hplan]
  · cases hfs : fs (out_path o q) with
    | present u =>
      rcases lt_trichotomy u (part_size q) with hu | hu | hu
      · rw [stepCore_of_incomplete m o fs q u hplan hfs hu]
        exact Fs.update_of_ne fs (out_path o q) (out_path o p) _ hne
      · rw [stepCore_of_complete m o fs q u hplan hfs hu]
      · rw [stepCore_of_oversized m o fs q u hplan hfs hu]
    | absent =>
      rw [stepCore_of_absent m o fs q hplan hfs]
      exact Fs.update_of_ne fs (out_path o q) (out_path o p) _ hne
    | accessError =>
      rw [stepCore_of_accessError m o fs q hplan hfs]
      exact Fs.update_of_ne fs (out_path o q) (out_path o p) _ hne

/-- A run over partitions all named differently from p never touches
the output path of p. -/
theorem dump_partitions_fs_other (b : Bool) (m : Int) (o : String) :
    ∀ (l : List PartDesc) (fs : Fs) (p : PartDesc),
      (∀ q ∈ l, q.name ≠ p.name) →
      (dump_partitions b m o l fs).fs (out_path o p) = fs (out_path o p) := by
  intro l
  induction l with
  | nil => intro fs p _; rfl
  | cons q qs ih =>
    intro fs p h
    rw [dump_partitions_cons]
    show (dump_partitions b m o qs (step b m o fs q).fs).fs (out_path o p)
      = fs (out_path o p)
    rw [ih (step b m o fs q).fs p (fun r hr => h r (List.mem_cons_of_mem q hr))]
    rw [step_fs]
    exact stepCore_fs_other m o fs q p (h q (List.mem_cons_self q qs))

/-- Every read issued by a step targets the stepped partition's own
output path, with the partition's full byte range. -/
theorem stepCore_reads_shape (m : Int) (o : String) (fs : Fs) (p : PartDesc) :
    (stepCore m o fs p).2.1 = []
      ∨ (stepCore m o fs p).2.1 = [⟨out_path o p, part_offset p, part_size p⟩] := by
  by_cases hplan : plannerSkips m p
  · rw [stepCore_of_skip m o fs p hplan]
    exact Or.inl rfl
  · cases hfs : fs (out_path o p) with
    | present u =>
      rcases lt_trichotomy u (part_size p) with hu | hu | hu
      · rw [stepCore_of_incomplete m o fs p u hplan hfs hu]
        exact Or.inr rfl
      · rw [stepCore_of_complete m o fs p u hplan hfs hu]
        exact Or.inl rfl
      · rw [stepCore_of_oversized m o fs p u hplan hfs hu]
        exact Or.inl rfl
    | absent =>
      rw [stepCore_of_absent m o fs p hplan hfs]
      exact Or.inr rfl
    | accessError =>
      rw [stepCore_of_accessError m o fs p hplan hfs]
      exact Or.inr rfl

/-- Every read of a run targets the output path of some partition of
the table. -/
theorem dump_partitions_reads_paths (b : Bool) (m : Int) (o : String) :
    ∀ (l : List PartDesc) (fs : Fs) (op : ReadOp),
      op ∈ (dump_partitions b m o l fs).reads →
      ∃ q ∈ l, op.path = out_path o q := by
  intro l
  induction l with
  | nil => intro fs op hop; cases hop
  | cons q qs ih =>
    intro fs op hop
    rw [dump_partitions_cons] at hop
    have hop2 : op ∈ (step b m o fs q).reads
        ∨ op ∈ (dump_partitions b m o qs (step b m o fs q).fs).reads :=
      List.mem_append.mp hop
    rcases hop2 with hin | hin
    · rw [step_reads] at hin
      rcases stepCore_reads_shape m o fs q with hsh | hsh
      · rw [hsh] at hin
        cases hin
      · rw [hsh] at hin
        rcases List.mem_singleton.mp hin with rfl
        exact ⟨q, List.mem_cons_self q qs, rfl⟩
    · obtain ⟨r, hr, hpath⟩ := ih (step b m o fs q).fs op hin
      exact ⟨r, List.mem_cons_of_mem q hr, hpath⟩

/-- A run emits exactly one decision per partition, in table order. -/
theorem dump_partitions_decisions_length (b : Bool) (m : Int) (o : String) :
    ∀ (l : List PartDesc) (fs : Fs),
      (dump_partitions b m o l fs).decisions.length = l.length := by
  intro l
  induction l with
  | nil => intro fs; rfl
  | cons q qs ih =>
    intro fs
    rw [dump_partitions_cons]
    show ((step b m o fs q).decision
      :: (dump_partitions b m o qs (step b m o fs q).fs).decisions).length
      = qs.length + 1
    rw [List.length_cons, ih]

/-- Decomposition of a run over a concatenated table. -/
theorem dump_partitions_append (b : Bool) (m : Int) (o : String) :
    ∀ (xs ys : List PartDesc) (fs : Fs),
      dump_partitions b m o (xs ++ ys) fs
        = ⟨(dump_partitions b m o xs fs).decisions
              ++ (dump_partitions b m o ys (dump_partitions b m o xs fs).fs).decisions,
           (dump_partitions b m o xs fs).reads
              ++ (dump_partitions b m o ys (dump_partitions b m o xs fs).fs).reads,
           (dump_partitions b m o xs fs).reports
              ++ (dump_partitions b m o ys (dump_partitions b m o xs fs).fs).reports,
           (dump_partitions b m o ys (dump_partitions b m o xs fs).fs).fs⟩ := by
  intro xs
  induction xs with
  | nil => intro ys fs; rfl
  | cons q qs ih =>
    intro ys fs
    show dump_partitions b m o (q :: (qs ++ ys)) fs = _
    rw [dump_partitions_cons, ih ys (step b m o fs q).fs,
      dump_partitions_cons b m o q qs fs]
    simp [List.append_assoc]

/-- The decision is the size-skip decision exactly when line 43's
condition holds. -/
theorem stepCore_skippedLarge_iff (m : Int) (o : String) (fs : Fs) (p : PartDesc) :
    (stepCore m o fs p).1.isSkippedLarge = true ↔ (m ≠ 0 ∧ part_size p > m) := by
  constructor
  · intro h
    by_cases hplan : m ≠ 0 ∧ part_size p > m
    · exact hplan
    · exfalso
      cases hfs : fs (out_path o p) with
      | present u =>
        rcases lt_trichotomy u (part_size p) with hu | hu | hu
        · rw [stepCore_of_incomplete m o fs p u hplan hfs hu] at h
          simp [Decision.isSkippedLarge] at h
        · rw [stepCore_of_complete m o fs p u hplan hfs hu] at h
          simp [Decision.isSkippedLarge] at h
        · rw [stepCore_of_oversized m o fs p u hplan hfs hu] at h
          simp [Decision.isSkippedLarge] at h
      | absent =>
        rw [stepCore_of_absent m o fs p hplan hfs] at h
        simp [Decision.isSkippedLarge] at h
      | accessError =>
        rw [stepCore_of_accessError m o fs p hplan hfs] at h
        simp [Decision.isSkippedLarge] at h
  · intro hplan
    rw [stepCore_of_skip m o fs p hplan]
    rfl

/-- C1: for every planned partition (one the size ceiling does not
skip), the Resume Reconciler's decision is a function of the existing
file size s against the authoritative byte_length L: s greater than L
aborts the partition without touching the file; s equal to L skips it
with no I/O; s less than L — and a missing file — dumps the entire
byte_length range fresh, after which the file holds exactly L bytes. -/
theorem resume_reconciler_decision_table (b : Bool) (m : Int) (o : String)
    (fs : Fs) (p : PartDesc) (hplan : ¬ (m ≠ 0 ∧ part_size p > m)) :
    (∀ s, fs (out_path o p) = .present s → part_size p < s →
      (step b m o fs p).decision = .abortOversized (out_path o p) s (part_size p)
      ∧ (step b m o fs p).reads = [] ∧ (step b m o fs p).fs = fs)
    ∧ (∀ s, fs (out_path o p) = .present s → s = part_size p →
      (step b m o fs p).decision = .skipComplete (part_label p) p.name (out_path o p)
      ∧ (step b m o fs p).reads = [] ∧ (step b m o fs p).fs = fs)
    ∧ (∀ s, fs (out_path o p) = .present s → s < part_size p →
      (step b m o fs p).decision
        = .dumped (part_label p) p.name (out_path o p) (part_offset p) (part_size p)
      ∧ (step b m o fs p).reads = [⟨out_path o p, part_offset p, part_size p⟩]
      ∧ (step b m o fs p).fs (out_path o p) = .present (part_size p))
    ∧ (fs (out_path o p) = .absent →
      (step b m o fs p).decision
        = .dumped (part_label p) p.name (out_path o p) (part_offset p) (part_size p)
      ∧ (step b m o fs p).reads = [⟨out_path o p, part_offset p, part_size p⟩]
      ∧ (step b m o fs p).fs (out_path o p) = .present (part_size p)) := by
  refine ⟨fun s hfs hs => ?_, fun s hfs hs => ?_, fun s hfs hs => ?_, fun hfs => ?_⟩
  · rw [step_decision, step_reads, step_fs, stepCore_of_oversized m o fs p s hplan hfs hs]
    exact ⟨rfl, rfl, rfl⟩
  · rw [step_decision, step_reads, step_fs, stepCore_of_complete m o fs p s hplan hfs hs]
    exact ⟨rfl, rfl, rfl⟩
  · rw [step_decision, step_reads, step_fs, stepCore_of_incomplete m o fs p s hplan hfs hs]
    exact ⟨rfl, rfl, Fs.update_same fs _ _⟩
  · rw [step_decision, step_reads, step_fs, stepCore_of_absent m o fs p hplan hfs]
    exact ⟨rfl, rfl, Fs.update_same fs _ _⟩

/-- Witness for C1: a concrete incomplete file of 100 bytes against a
51200-byte partition is re-dumped over the full range. -/
theorem resume_reconciler_decision_table_witness :
    (step false 0 "." (fun _ => FileState.present 100) ⟨1, "recovery", 100, 199⟩).decision
      = Decision.dumped "/dev/mmcblk0p1" "recovery" "./recovery.bin" 51200 51200 :=
  ((resume_reconciler_decision_table false 0 "." (fun _ => FileState.present 100)
      ⟨1, "recovery", 100, 199⟩ (by decide)).2.2.1 100 rfl (by decide)).1

/-- C2: the Dump Planner skips a partition, with no filesystem action,
exactly when max_size is nonzero and the partition's byte length
exceeds it; a ceiling of exactly 0 disables the check, so no partition
is ever skipped for size. -/
theorem dump_planner_skip_iff (b : Bool) (m : Int) (o : String) (fs : Fs)
    (p : PartDesc) :
    ((step b m o fs p).decision.isSkippedLarge = true ↔ (m ≠ 0 ∧ part_size p > m))
    ∧ ((m ≠ 0 ∧ part_size p > m) →
        (step b m o fs p).reads = [] ∧ (step b m o fs p).fs = fs)
    ∧ (m = 0 → (step b m o fs p).decision.isSkippedLarge = false) := by
  refine ⟨?_, fun hplan => ?_, fun hm => ?_⟩
  · rw [step_decision]
    exact stepCore_skippedLarge_iff m o fs p
  · rw [step_reads, step_fs, stepCore_of_skip m o fs p hplan]
    exact ⟨rfl, rfl⟩
  · rw [step_decision]
    cases hb : (stepCore m o fs p).1.isSkippedLarge with
    | false => rfl
    | true =>
      obtain ⟨hm0, _⟩ := (stepCore_skippedLarge_iff m o fs p).mp hb
      exact absurd hm hm0

/-- C3: the planned byte range is byte_offset = first_lba * BLOCK_SIZE
and byte_length = (last_lba + 1 - first_lba) * BLOCK_SIZE; for the
descriptor with first_lba 100 and last_lba 199 at BLOCK_SIZE 512 the
executor is invoked with offset 51200 and length 51200, leaving a
51200-byte file. -/
theorem byte_range_derivation :
    (∀ p : PartDesc, part_offset p = (p.first_lba : Int) * 512
       ∧ part_size p = ((p.last_lba : Int) + 1 - (p.first_lba : Int)) * 512)
    ∧ part_offset ⟨1, "recovery", 100, 199⟩ = 51200
    ∧ part_size ⟨1, "recovery", 100, 199⟩ = 51200
    ∧ (step false 0 "." (fun _ => FileState.absent) ⟨1, "recovery", 100, 199⟩).reads
        = [⟨"./recovery.bin", 51200, 51200⟩]
    ∧ (step false 0 "." (fun _ => FileState.absent) ⟨1, "recovery", 100, 199⟩).fs
        "./recovery.bin" = FileState.present 51200 := by
  exact ⟨fun p => ⟨rfl, rfl⟩, by decide, by decide, by decide, by decide⟩

/-- C6: a second run over the same table, ceiling and output directory
against the filesystem the first run left behind issues no Device
Channel reads and changes no output file. -/
theorem second_run_idempotent (b : Bool) (m : Int) (o : String)
    (l : List PartDesc) (fs : Fs) :
    (dump_partitions b m o l (dump_partitions b m o l fs).fs).reads = []
    ∧ (dump_partitions b m o l (dump_partitions b m o l fs).fs).fs
        = (dump_partitions b m o l fs).fs :=
  dump_partitions_of_stable b m o l (dump_partitions b m o l fs).fs
    (fun p hp => dump_partitions_establishes_stable b m o l fs p hp)

/-- C9: the batch flag only selects the reporting channel: two runs
identical except for the batch flag make the same per-partition
decisions, issue the same Device Channel reads, and leave every path
of the filesystem in the same state. -/
theorem batch_flag_reporting_only (m : Int) (o : String) (l : List PartDesc)
    (fs : Fs) :
    (dump_partitions true m o l fs).decisions
        = (dump_partitions false m o l fs).decisions
    ∧ (dump_partitions true m o l fs).reads
        = (dump_partitions false m o l fs).reads
    ∧ ∀ q, (dump_partitions true m o l fs).fs q
        = (dump_partitions false m o l fs).fs q := by
  induction l generalizing fs with
  | nil => exact ⟨rfl, rfl, fun q => rfl⟩
  | cons p ps ih =>
    obtain ⟨hd, hr, hf⟩ := ih (stepCore m o fs p).2.2
    refine ⟨?_, ?_, ?_⟩
    · show (stepCore m o fs p).1
          :: (dump_partitions true m o ps (stepCore m o fs p).2.2).decisions
        = (stepCore m o fs p).1
          :: (dump_partitions false m o ps (stepCore m o fs p).2.2).decisions
      rw [hd]
    · show (stepCore m o fs p).2.1
          ++ (dump_partitions true m o ps (stepCore m o fs p).2.2).reads
        = (stepCore m o fs p).2.1
          ++ (dump_partitions false m o ps (stepCore m o fs p).2.2).reads
      rw [hr]
    · intro q
      show (dump_partitions true m o ps (stepCore m o fs p).2.2).fs q
        = (dump_partitions false m o ps (stepCore m o fs p).2.2).fs q
      exact hf q

/-- C10: the command-line ceiling in KiB is converted to bytes by
multiplying by exactly 1024, preserving the unlimited sentinel 0; the
default of 65535 KiB converts to 67107840 bytes, so by default a
partition is size-skipped exactly when its byte length exceeds
67107840, while a 0 ceiling never size-skips. -/
theorem max_size_kib_conversion :
    (∀ k : Int, max_size_bytes k = k * 1024)
    ∧ max_size_bytes 0 = 0
    ∧ max_size_bytes default_max_size = 67107840
    ∧ (∀ (b : Bool) (o : String) (fs : Fs) (p : PartDesc),
        ((step b (max_size_bytes default_max_size) o fs p).decision.isSkippedLarge = true
          ↔ part_size p > 67107840))
    ∧ (∀ (b : Bool) (o : String) (fs : Fs) (p : PartDesc),
        (step b (max_size_bytes 0) o fs p).decision.isSkippedLarge = false) := by
  have hconv : max_size_bytes default_max_size = 67107840 := by decide
  have hzero : max_size_bytes 0 = 0 := by decide
  refine ⟨fun k => rfl, hzero, hconv, fun b o fs p => ?_, fun b o fs p => ?_⟩
  · rw [step_decision, stepCore_skippedLarge_iff, hconv]
    constructor
    · intro h
      exact h.2
    · intro h
      exact ⟨by decide, h⟩
  · rw [step_decision]
    cases hb : (stepCore (max_size_bytes 0) o fs p).1.isSkippedLarge with
    | false => rfl
    | true =>
      obtain ⟨hm0, _⟩ := (stepCore_skippedLarge_iff (max_size_bytes 0) o fs p).mp hb
      exact absurd hzero hm0

/-- C4 counterexample: a partition of byte length 512 whose size probe
fails with an error other than file-not-found is not treated as a hard
error: the handler of line 67 catches every OSError, and the partition
is dumped fresh, with a Device Channel read issued. -/
theorem probe_error_swallowed_cex :
    (step false 0 "."
        (fun path => if path = "./probe.bin" then FileState.accessError else FileState.absent)
        ⟨1, "probe", 0, 0⟩).decision
      = Decision.dumped "/dev/mmcblk0p1" "probe" "./probe.bin" 0 512
    ∧ (step false 0 "."
        (fun path => if path = "./probe.bin" then FileState.accessError else FileState.absent)
        ⟨1, "probe", 0, 0⟩).reads
      = [⟨"./probe.bin", 0, 512⟩] :=
  ⟨by decide, by decide⟩

/-- C4 as amended: every filesystem error raised by the size probe —
not only file-not-found — is tolerated and collapsed to proceed-fresh:
the partition is dumped over its whole byte range exactly as if the
file were missing. -/
theorem probe_error_proceeds_fresh (b : Bool) (m : Int) (o : String)
    (fs : Fs) (p : PartDesc) (hplan : ¬ (m ≠ 0 ∧ part_size p > m))
    (hfs : fs (out_path o p) = .accessError) :
    (step b m o fs p).decision
      = .dumped (part_label p) p.name (out_path o p) (part_offset p) (part_size p)
    ∧ (step b m o fs p).reads = [⟨out_path o p, part_offset p, part_size p⟩]
    ∧ (step b m o fs p).fs (out_path o p) = .present (part_size p) := by
  rw [step_decision, step_reads, step_fs, stepCore_of_accessError m o fs p hplan hfs]
  exact ⟨rfl, rfl, Fs.update_same fs _ _⟩

/-- Witness for the amended C4 at a concrete failing probe. -/
theorem probe_error_proceeds_fresh_witness :
    (step true 0 "out" (fun _ => FileState.accessError) ⟨2, "sys", 8, 9⟩).decision
      = Decision.dumped "/dev/mmcblk0p2" "sys" "out/sys.bin" 4096 1024
    ∧ (step true 0 "out" (fun _ => FileState.accessError) ⟨2, "sys", 8, 9⟩).reads
      = [⟨"out/sys.bin", 4096, 1024⟩]
    ∧ (step true 0 "out" (fun _ => FileState.accessError) ⟨2, "sys", 8, 9⟩).fs
        "out/sys.bin" = FileState.present 1024 :=
  probe_error_proceeds_fresh true 0 "out" (fun _ => FileState.accessError)
    ⟨2, "sys", 8, 9⟩ (by decide) rfl

/-- C5 counterexample: the descriptor with first_lba 10 and last_lba 5
is not fatal for the run: the code computes the negative byte length
-2048, the default ceiling does not skip it, and with no existing file
the executor is invoked with that negative length. -/
theorem inverted_lba_dumped_cex :
    part_size ⟨1, "bad", 10, 5⟩ = -2048
    ∧ (step false 67107840 "." (fun _ => FileState.absent) ⟨1, "bad", 10, 5⟩).decision
        = Decision.dumped "/dev/mmcblk0p1" "bad" "./bad.bin" 5120 (-2048)
    ∧ (step false 67107840 "." (fun _ => FileState.absent) ⟨1, "bad", 10, 5⟩).reads
        = [⟨"./bad.bin", 5120, -2048⟩] :=
  ⟨by decide, by decide, by decide⟩

/-- C5 as amended: a descriptor with last_lba below first_lba is never
detected: the computed byte length is non-positive, a non-negative
ceiling never skips the partition, and when the output file is missing
the executor is invoked with that non-positive length instead of the
run failing. -/
theorem inverted_lba_not_fatal (b : Bool) (m : Int) (o : String) (fs : Fs)
    (p : PartDesc) (hlt : p.last_lba < p.first_lba) (hm : 0 ≤ m)
    (hfs : fs (out_path o p) = .absent) :
    part_size p ≤ 0
    ∧ (step b m o fs p).decision
        = .dumped (part_label p) p.name (out_path o p) (part_offset p) (part_size p)
    ∧ (step b m o fs p).reads = [⟨out_path o p, part_offset p, part_size p⟩] := by
  have hsize : part_size p ≤ 0 := by
    unfold part_size BLOCK_SIZE
    have h1 : (p.last_lba : Int) + 1 - (p.first_lba : Int) ≤ 0 := by
      have h2 : (p.last_lba : Int) + 1 ≤ (p.first_lba : Int) := by exact_mod_cast hlt
      omega
    have h3 : ((p.last_lba : Int) + 1 - (p.first_lba : Int)) * 512 ≤ 0 * 512 :=
      mul_le_mul_of_nonneg_right h1 (by norm_num)
    simpa using h3
  have hplan : ¬ (m ≠ 0 ∧ part_size p > m) := by
    rintro ⟨hm0, hgt⟩
    have hpos : 0 < m := lt_of_le_of_ne hm (Ne.symm hm0)
    omega
  rw [step_decision, step_reads, stepCore_of_absent m o fs p hplan hfs]
  exact ⟨hsize, rfl, rfl⟩

/-- Witness for the amended C5 at a concrete inverted descriptor. -/
theorem inverted_lba_not_fatal_witness :
    part_size ⟨1, "bad", 10, 5⟩ ≤ 0
    ∧ (step false 0 "." (fun _ => FileState.absent) ⟨1, "bad", 10, 5⟩).decision
        = Decision.dumped "/dev/mmcblk0p1" "bad" "./bad.bin" 5120 (-2048)
    ∧ (step false 0 "." (fun _ => FileState.absent) ⟨1, "bad", 10, 5⟩).reads
        = [⟨"./bad.bin", 5120, -2048⟩] :=
  inverted_lba_not_fatal false 0 "." (fun _ => FileState.absent)
    ⟨1, "bad", 10, 5⟩ (by decide) (by decide) rfl

/-- C7: a planned partition whose existing output file is strictly
larger than its byte length is aborted: the run leaves the file's
state unchanged, records the oversized warning carrying both sizes at
the partition's position, and still emits one decision for every
partition of the table. -/
theorem oversized_file_untouched (b : Bool) (m : Int) (o : String)
    (pre post : List PartDesc) (p : PartDesc) (fs : Fs) (s : Int)
    (hnames : ∀ q, q ∈ pre ++ post → q.name ≠ p.name)
    (hfs : fs (out_path o p) = .present s)
    (hs : part_size p < s)
    (hplan : ¬ (m ≠ 0 ∧ part_size p > m)) :
    (dump_partitions b m o (pre ++ p :: post) fs).decisions[pre.length]?
      = some (.abortOversized (out_path o p) s (part_size p))
    ∧ (dump_partitions b m o (pre ++ p :: post) fs).fs (out_path o p) = .present s
    ∧ (dump_partitions b m o (pre ++ p :: post) fs).decisions.length
      = pre.length + 1 + post.length := by
  have hpre : ∀ q ∈ pre, q.name ≠ p.name :=
    fun q hq => hnames q (List.mem_append_left post hq)
  have hpost : ∀ q ∈ post, q.name ≠ p.name :=
    fun q hq => hnames q (List.mem_append_right pre hq)
  have h1 : (dump_partitions b m o pre fs).fs (out_path o p) = .present s := by
    rw [dump_partitions_fs_other b m o pre fs p hpre]
    exact hfs
  have hstep : stepCore m o (dump_partitions b m o pre fs).fs p
      = (.abortOversized (out_path o p) s (part_size p), [],
         (dump_partitions b m o pre fs).fs) :=
    stepCore_of_oversized m o (dump_partitions b m o pre fs).fs p s hplan h1 hs
  rw [dump_partitions_append b m o pre (p :: post) fs]
  refine ⟨?_, ?_, ?_⟩
  · show ((dump_partitions b m o pre fs).decisions
      ++ (dump_partitions b m o (p :: post) (dump_partitions b m o pre fs).fs).decisions)[pre.length]?
      = some (.abortOversized (out_path o p) s (part_size p))
    rw [List.getElem?_append_right
        (le_of_eq (dump_partitions_decisions_length b m o pre fs)),
      dump_partitions_decisions_length b m o pre fs]
    rw [dump_partitions_cons]
    simp only [Nat.sub_self]
    show ((step b m o (dump_partitions b m o pre fs).fs p).decision
      :: (dump_partitions b m o post
            (step b m o (dump_partitions b m o pre fs).fs p).fs).decisions)[0]?
      = some (.abortOversized (out_path o p) s (part_size p))
    rw [step_decision, hstep]
    simp
  · show (dump_partitions b m o (p :: post)
        (dump_partitions b m o pre fs).fs).fs (out_path o p) = .present s
    rw [dump_partitions_cons]
    show (dump_partitions b m o post
        (step b m o (dump_partitions b m o pre fs).fs p).fs).fs (out_path o p)
      = .present s
    rw [dump_partitions_fs_other b m o post _ p hpost, step_fs, hstep]
    exact h1
  · show ((dump_partitions b m o pre fs).decisions
      ++ (dump_partitions b m o (p :: post) (dump_partitions b m o pre fs).fs).decisions).length
      = pre.length + 1 + post.length
    rw [List.length_append, dump_partitions_decisions_length,
      dump_partitions_decisions_length]
    rw [List.length_cons]
    omega

/-- Witness for C7: a single-partition table whose 600-byte output file
exceeds the 512-byte target is aborted and the file keeps 600 bytes. -/
theorem oversized_file_untouched_witness :
    (dump_partitions false 0 "." ([] ++ ⟨1, "over", 0, 0⟩ :: [])
        (fun _ => FileState.present 600)).decisions[(0 : Nat)]?
      = some (Decision.abortOversized "./over.bin" 600 512)
    ∧ (dump_partitions false 0 "." ([] ++ ⟨1, "over", 0, 0⟩ :: [])
        (fun _ => FileState.present 600)).fs "./over.bin" = FileState.present 600
    ∧ (dump_partitions false 0 "." ([] ++ ⟨1, "over", 0, 0⟩ :: [])
        (fun _ => FileState.present 600)).decisions.length = 0 + 1 + 0 :=
  oversized_file_untouched false 0 "." [] [] ⟨1, "over", 0, 0⟩
    (fun _ => FileState.present 600) 600
    (by intro q hq; cases hq) rfl (by decide) (by decide)

/-- C8: a planned partition whose output file already has exactly its
byte length is skipped: the skip-complete decision is recorded at the
partition's position, no Device Channel read of the whole run targets
the partition's output path, and the file's state is unchanged. -/
theorem complete_file_skipped (b : Bool) (m : Int) (o : String)
    (pre post : List PartDesc) (p : PartDesc) (fs : Fs)
    (hnames : ∀ q, q ∈ pre ++ post → q.name ≠ p.name)
    (hfs : fs (out_path o p) = .present (part_size p))
    (hplan : ¬ (m ≠ 0 ∧ part_size p > m)) :
    (dump_partitions b m o (pre ++ p :: post) fs).decisions[pre.length]?
      = some (.skipComplete (part_label p) p.name (out_path o p))
    ∧ (∀ op ∈ (dump_partitions b m o (pre ++ p :: post) fs).reads,
        op.path ≠ out_path o p)
    ∧ (dump_partitions b m o (pre ++ p :: post) fs).fs (out_path o p)
      = .present (part_size p) := by
  have hpre : ∀ q ∈ pre, q.name ≠ p.name :=
    fun q hq => hnames q (List.mem_append_left post hq)
  have hpost : ∀ q ∈ post, q.name ≠ p.name :=
    fun q hq => hnames q (List.mem_append_right pre hq)
  have h1 : (dump_partitions b m o pre fs).fs (out_path o p)
      = .present (part_size p) := by
    rw [dump_partitions_fs_other b m o pre fs p hpre]
    exact hfs
  have hstep : stepCore m o (dump_partitions b m o pre fs).fs p
      = (.skipComplete (part_label p) p.name (out_path o p), [],
         (dump_partitions b m o pre fs).fs) :=
    stepCore_of_complete m o (dump_partitions b m o pre fs).fs p
      (part_size p) hplan h1 rfl
  rw [dump_partitions_append b m o pre (p :: post) fs]
  refine ⟨?_, ?_, ?_⟩
  · show ((dump_partitions b m o pre fs).decisions
      ++ (dump_partitions b m o (p :: post) (dump_partitions b m o pre fs).fs).decisions)[pre.length]?
      = some (.skipComplete (part_label p) p.name (out_path o p))
    rw [List.getElem?_append_right
        (le_of_eq (dump_partitions_decisions_length b m o pre fs)),
      dump_partitions_decisions_length b m o pre fs]
    rw [dump_partitions_cons]
    simp only [Nat.sub_self]
    show ((step b m o (dump_partitions b m o pre fs).fs p).decision
      :: (dump_partitions b m o post
            (step b m o (dump_partitions b m o pre fs).fs p).fs).decisions)[0]?
      = some (.skipComplete (part_label p) p.name (out_path o p))
    rw [step_decision, hstep]
    simp
  · intro op hop
    show op.path ≠ out_path o p
    rw [dump_partitions_cons] at hop
    have hsplit : op ∈ (dump_partitions b m o pre fs).reads
        ∨ op ∈ ((step b m o (dump_partitions b m o pre fs).fs p).reads
            ++ (dump_partitions b m o post
                (step b m o (dump_partitions b m o pre fs).fs p).fs).reads) := by
      have := List.mem_append.mp hop
      simpa using this
    rcases hsplit with hin | hin
    · obtain ⟨q, hq, hpath⟩ := dump_partitions_reads_paths b m o pre fs op hin
      rw [hpath]
      exact out_path_name_ne o q p (hpre q hq)
    · rcases List.mem_append.mp hin with hin2 | hin2
      · rw [step_reads, hstep] at hin2
        cases hin2
      · obtain ⟨q, hq, hpath⟩ := dump_partitions_reads_paths b m o post _ op hin2
        rw [hpath]
        exact out_path_name_ne o q p (hpost q hq)
  · show (dump_partitions b m o (p :: post)
        (dump_partitions b m o pre fs).fs).fs (out_path o p)
      = .present (part_size p)
    rw [dump_partitions_cons]
    show (dump_partitions b m o post
        (step b m o (dump_partitions b m o pre fs).fs p).fs).fs (out_path o p)
      = .present (part_size p)
    rw [dump_partitions_fs_other b m o post _ p hpost, step_fs, hstep]
    exact h1

/-- Witness for C8: a single-partition table whose output file already
has exactly 512 bytes is skipped with no read. -/
theorem complete_file_skipped_witness :
    (dump_partitions true 0 "." ([] ++ ⟨1, "done", 0, 0⟩ :: [])
        (fun _ => FileState.present 512)).decisions[(0 : Nat)]?
      = some (Decision.skipComplete "/dev/mmcblk0p1" "done" "./done.bin")
    ∧ (∀ op ∈ (dump_partitions true 0 "." ([] ++ ⟨1, "done", 0, 0⟩ :: [])
        (fun _ => FileState.present 512)).reads, op.path ≠ "./done.bin")
    ∧ (dump_partitions true 0 "." ([] ++ ⟨1, "done", 0, 0⟩ :: [])
        (fun _ => FileState.present 512)).fs "./done.bin" = FileState.present 512 :=
  complete_file_skipped true 0 "." [] [] ⟨1, "done", 0, 0⟩
    (fun _ => FileState.present 512)
    (by intro q hq; cases hq) (by decide) (by decide)

end ExtractPartitions
